import Mathlib

/-!
Shallow embedding of the map-generation core of `brain-engine`
(`brain-engine-core/src/map_tile.rs`, `tile_generator.rs`, `map.rs`),
together with theorems settling the specification claims about it.

Machine integers: the Rust code uses `u8` direction/tile discriminants
(all values are at most 15, far from overflow) and `i32` coordinates
(`IVec2`); we model masks by `Nat` and coordinates by `Int`.  The seeded
random number generator is modelled by the abstract sequence of outcomes
of its successive `random_bool` draws, together with a cursor counting
how many draws have been consumed; `f64` probabilities are modelled by
`ℚ`, which is adequate because the code only ever range-checks them.
-/

namespace BrainEngine

/-- Compass direction (`map_tile.rs`, `enum Direction`). -/
inductive Direction where
  | North
  | East
  | South
  | West
deriving DecidableEq, Repr

namespace Direction

/-- The `repr(u8)` discriminant of each direction: powers of two so that
direction sets compose by bitwise or / sum. -/
def val : Direction → Nat
  | .North => 1
  | .East => 2
  | .South => 4
  | .West => 8

/-- `Direction::opposite` (`map_tile.rs`). -/
def opposite : Direction → Direction
  | .North => .South
  | .East => .West
  | .South => .North
  | .West => .East

/-- `Direction::rotate_clockwise` (`map_tile.rs`). -/
def rotate_clockwise : Direction → Direction
  | .North => .East
  | .East => .South
  | .South => .West
  | .West => .North

/-- `Direction::rotate_counter_clockwise` (`map_tile.rs`). -/
def rotate_counter_clockwise : Direction → Direction
  | .North => .West
  | .East => .North
  | .South => .East
  | .West => .South

/-- `Direction::all` (`map_tile.rs`): the four directions in canonical order. -/
def all : List Direction :=
  [.North, .East, .South, .West]

end Direction

/-- Exit-mask tile (`map_tile.rs`, `enum MapTile`): one constructor per
valid 4-bit exit mask. -/
inductive MapTile where
  | ZERO
  | N
  | E
  | S
  | W
  | NE
  | NS
  | NW
  | ES
  | EW
  | SW
  | NES
  | NEW
  | NWS
  | ESW
  | NESW
deriving DecidableEq, Repr

namespace MapTile

/-- The `repr(u8)` discriminant of each tile: the bitmask of its exits. -/
def toNat : MapTile → Nat
  | .ZERO => 0
  | .N => 1
  | .E => 2
  | .NE => 3
  | .S => 4
  | .NS => 5
  | .ES => 6
  | .NES => 7
  | .W => 8
  | .NW => 9
  | .EW => 10
  | .NEW => 11
  | .SW => 12
  | .NWS => 13
  | .ESW => 14
  | .NESW => 15

/-- The `match sum { ... }` table at the end of `MapTile::from_directions`:
maps a mask value back to the tile, `none` for anything above 15. -/
def ofMask : Nat → Option MapTile
  | 0 => some .ZERO
  | 1 => some .N
  | 2 => some .E
  | 3 => some .NE
  | 4 => some .S
  | 5 => some .NS
  | 6 => some .ES
  | 7 => some .NES
  | 8 => some .W
  | 9 => some .NW
  | 10 => some .EW
  | 11 => some .NEW
  | 12 => some .SW
  | 13 => some .NWS
  | 14 => some .ESW
  | 15 => some .NESW
  | _ => none

/-- `MapTile::from_directions` (`map_tile.rs`): length check, duplicate
check via the deduplicated count (`HashSet` in the source), then the sum
of the direction discriminants looked up in the mask table. -/
def from_directions (ds : List Direction) : Option MapTile :=
  if 4 < ds.length then none
  else if ds.dedup.length ≠ ds.length then none
  else ofMask (ds.map Direction.val).sum

/-- `MapTile::directions` (`map_tile.rs`): decompose the mask, pushing
members in canonical North, East, South, West order. -/
def directions (t : MapTile) : List Direction :=
  (if t.toNat &&& Direction.val .North ≠ 0 then [Direction.North] else []) ++
  (if t.toNat &&& Direction.val .East ≠ 0 then [Direction.East] else []) ++
  (if t.toNat &&& Direction.val .South ≠ 0 then [Direction.South] else []) ++
  (if t.toNat &&& Direction.val .West ≠ 0 then [Direction.West] else [])

end MapTile

/-- Modelled from the spec: the tile-style classification ("open area" vs
"narrow passage") — `enum TileSet \x7b Room, Corridor \x7d`, whose definition
is not among the provided sources but is fully determined by its uses
(`TileSet::Room`, `TileSet::Corridor` in `tile_generator.rs` and the map
tests). -/
inductive TileSet where
  | Room
  | Corridor
deriving DecidableEq, Repr

/-- Modelled from the spec: the stored tile — exit mask plus style tag —
`struct Tile \x7b tile_set, map_tile \x7d`, whose definition is not among the
provided sources but is fully determined by its uses (`Tile::new(tile_set,
map_tile)` and the field accesses in `map.rs` / `tile_generator.rs`). -/
structure Tile where
  tile_set : TileSet
  map_tile : MapTile
deriving DecidableEq, Repr

/-- `Tile::new`. -/
def Tile.new (tile_set : TileSet) (map_tile : MapTile) : Tile :=
  ⟨tile_set, map_tile⟩

/-- 2-D signed integer vector (`bevy`'s `IVec2`, `i32` components modelled
by `Int`). -/
structure IVec2 where
  x : Int
  y : Int
deriving DecidableEq, Repr

instance : Add IVec2 :=
  ⟨fun a b => ⟨a.x + b.x, a.y + b.y⟩⟩

/-- The displacement vector of one step in a direction, as matched in
`TileGeneratorDefault::tile_at` (`tile_generator.rs`). -/
def Direction.vec : Direction → IVec2
  | .North => ⟨0, 1⟩
  | .East => ⟨1, 0⟩
  | .South => ⟨0, -1⟩
  | .West => ⟨-1, 0⟩

/-- The `match (delta.x, delta.y)` in `Map::can_move` (`map.rs`): the
direction of travel of a unit cardinal displacement, `none` otherwise. -/
def dirOfDelta (dx dy : Int) : Option Direction :=
  if dx = 0 ∧ dy = 1 then some .North
  else if dx = 1 ∧ dy = 0 then some .East
  else if dx = 0 ∧ dy = -1 then some .South
  else if dx = -1 ∧ dy = 0 then some .West
  else none

/-- The `Map` resource (`map.rs`): grid width `x`, height `y`, and the
coordinate-keyed tile store.  The `HashMap<IVec2, Tile>` is modelled as a
partial function, which inherently has at most one entry per key. -/
structure MapModel where
  x : Nat
  y : Nat
  tiles : IVec2 → Option Tile

/-- `Map::can_move` (`map.rs`): equal-coordinate guard, bounds guard,
unit-cardinal-displacement match, defensive tile lookups, then the
exit test on both sides of the shared wall. -/
def MapModel.can_move (m : MapModel) (p q : IVec2) : Bool :=
  if p = q then false
  else if p.x < 0 ∨ p.y < 0 ∨ p.x ≥ (m.x : Int) ∨ p.y ≥ (m.y : Int) ∨
      q.x < 0 ∨ q.y < 0 ∨ q.x ≥ (m.x : Int) ∨ q.y ≥ (m.y : Int) then false
  else
    match dirOfDelta (q.x - p.x) (q.y - p.y) with
    | none => false
    | some d =>
      match m.tiles p with
      | none => false
      | some from_tile =>
        match m.tiles q with
        | none => false
        | some to_tile =>
          decide (d ∈ from_tile.map_tile.directions) &&
            decide (d.opposite ∈ to_tile.map_tile.directions)

/-- A coordinate lies inside the `[0,width) × [0,height)` grid of a map. -/
def MapModel.inBounds (m : MapModel) (p : IVec2) : Prop :=
  0 ≤ p.x ∧ p.x < (m.x : Int) ∧ 0 ≤ p.y ∧ p.y < (m.y : Int)

instance (m : MapModel) (p : IVec2) : Decidable (m.inBounds p) := by
  unfold MapModel.inBounds
  infer_instance

/-! ### The pluggable generator contract and the generation driver

The Rust trait method `tile_at` takes `&self` but the default
implementation mutates interior random-number state through a mutex, and
`rand`'s `random_bool` can panic on an out-of-range probability.  We
therefore model a generator as a state type `σ` together with a step
function that, from the current generator state and the tiles generated
so far, either produces a tile and the next generator state or fails
(`none` models a panic).  A stateless, total generator simply ignores
and returns its state. -/

/-- A pluggable tile generator (`trait TileGenerator`, `tile_generator.rs`):
generator state in, `(tile, next state)` out, `none` modelling a panic. -/
def StepGen (σ : Type) : Type :=
  σ → (IVec2 → Option Tile) → IVec2 → Option (Tile × σ)

/-- The scan order of `Map::new` (`iproduct!(0..x, 0..y)`): outer loop on
`x`, inner loop on `y`, both ascending. -/
def genPositions (x y : Nat) : List IVec2 :=
  (List.range x).flatMap
    (fun (i : Nat) => (List.range y).map (fun (j : Nat) => IVec2.mk (i : Int) (j : Int)))

/-- The generation loop body of `Map::new`: fold the scan positions,
asking the generator for each tile with the tiles stored so far and
inserting the result immediately. -/
def buildTiles {σ : Type} (step : StepGen σ) :
    List IVec2 → (IVec2 → Option Tile) → σ → Option ((IVec2 → Option Tile) × σ)
  | [], tiles, s => some (tiles, s)
  | p :: ps, tiles, s =>
    match step s tiles p with
    | none => none
    | some (t, s') => buildTiles step ps (fun q => if q = p then some t else tiles q) s'

/-- `Map::new(size, generator)` (`map.rs`): a `size × size` grid generated
in the fixed scan order, starting from an empty tile store. -/
def mapNew {σ : Type} (size : Nat) (step : StepGen σ) (s0 : σ) :
    Option (MapModel × σ) :=
  match buildTiles step (genPositions size size) (fun _ => none) s0 with
  | none => none
  | some (tiles, s) => some (⟨size, size, tiles⟩, s)

/-! ### The default generator -/

/-- The configuration fields of `TileGeneratorDefault`
(`tile_generator.rs`): `f64` probabilities modelled by `ℚ`. -/
structure GenCfg where
  tile_exit_probability : ℚ
  room_probability : ℚ
deriving DecidableEq, Repr

/-- The seeded random source (`RandomSource::Seeded`, `tile_generator.rs`),
modelled abstractly: `draws` is the deterministic sequence of Bernoulli
outcomes the seeded `StdRng` produces for the successive `random_bool`
calls, and `idx` counts how many draws have been consumed. -/
structure GenState where
  draws : Nat → Bool
  idx : Nat

/-- `RandomSource::random_bool` via `rand`'s `Rng::random_bool`: consumes
the next draw; a probability outside `[0,1]` makes `rand` panic
(modelled by `none`).  Note there is no range validation anywhere before
this point. -/
def randomBool (p : ℚ) (s : GenState) : Option (Bool × GenState) :=
  if 0 ≤ p ∧ p ≤ 1 then some (s.draws s.idx, ⟨s.draws, s.idx + 1⟩) else none

/-- `TileGeneratorDefault::with_probabilities` (`tile_generator.rs`): the
probabilities are stored as given, with no validation of any kind. -/
def with_probabilities (tile_exit_probability room_probability : ℚ) : GenCfg :=
  ⟨tile_exit_probability, room_probability⟩

/-- The probabilities installed by `TileGeneratorDefault::new_with_rng`
(hence by `new` and `with_seed`): `0.35` for both. -/
def defaultCfg : GenCfg :=
  ⟨35 / 100, 35 / 100⟩

/-- `TileGeneratorDefault::with_seed(seed)`: a fresh generator state whose
outcome sequence is the one determined by the seed and whose cursor
starts at the first draw. -/
def withSeed (seededDraws : Nat → Bool) : GenState :=
  ⟨seededDraws, 0⟩

/-- The direction loop of `TileGeneratorDefault::tile_at`
(`tile_generator.rs`): for each direction in canonical order, look up the
neighbor one step away; if it is already generated, open the direction
exactly when the neighbor has the opposite exit (consuming no
randomness); otherwise draw `random_bool(tile_exit_probability)` and
open the direction when the draw is true. -/
def collectExits (cfg : GenCfg) (tiles : IVec2 → Option Tile) (loc : IVec2) :
    List Direction → GenState → Option (List Direction × GenState)
  | [], s => some ([], s)
  | d :: ds, s =>
    match tiles (loc + d.vec) with
    | some t =>
      match collectExits cfg tiles loc ds s with
      | none => none
      | some (out, s') =>
        if d.opposite ∈ t.map_tile.directions then some (d :: out, s') else some (out, s')
    | none =>
      match randomBool cfg.tile_exit_probability s with
      | none => none
      | some (b, s1) =>
        match collectExits cfg tiles loc ds s1 with
        | none => none
        | some (out, s') =>
          if b then some (d :: out, s') else some (out, s')

/-- `TileGeneratorDefault::tile_at` (`tile_generator.rs`): collect the
exits, build the tile via `MapTile::from_directions` — the source
`.unwrap()`s the result, so a `None` there is a panic, modelled by
`none` — then draw the room/corridor classification. -/
def tileAtDefault (cfg : GenCfg) : StepGen GenState := fun s tiles loc =>
  match collectExits cfg tiles loc Direction.all s with
  | none => none
  | some (exits, s1) =>
    match MapTile.from_directions exits with
    | none => none
    | some map_tile =>
      match randomBool cfg.room_probability s1 with
      | none => none
      | some (b, s2) =>
        some (Tile.new (if b then .Room else .Corridor) map_tile, s2)

/-- Whether the neighbor of `loc` one step in direction `d` has no
generated tile yet (the branch of `tile_at` that consumes a draw). -/
def ungenerated (tiles : IVec2 → Option Tile) (loc : IVec2) (d : Direction) : Bool :=
  (tiles (loc + d.vec)).isNone

/-- How many random draws `tile_at`'s direction loop consumes strictly
before it considers direction `d`: one per earlier direction (in
canonical North, East, South, West order) whose neighbor is not yet
generated. -/
def drawsBefore (tiles : IVec2 → Option Tile) (loc : IVec2) : Direction → Nat
  | .North => 0
  | .East => (if ungenerated tiles loc .North then 1 else 0)
  | .South =>
    (if ungenerated tiles loc .North then 1 else 0) +
    (if ungenerated tiles loc .East then 1 else 0)
  | .West =>
    (if ungenerated tiles loc .North then 1 else 0) +
    (if ungenerated tiles loc .East then 1 else 0) +
    (if ungenerated tiles loc .South then 1 else 0)

/-! ### Spec-side and witness definitions -/

/-- The mask value of a duplicate-free collection of directions, written
as the sum of one term per member direction. -/
def maskOf (ds : List Direction) : Nat :=
  (if Direction.North ∈ ds then 1 else 0) +
  (if Direction.East ∈ ds then 2 else 0) +
  (if Direction.South ∈ ds then 4 else 0) +
  (if Direction.West ∈ ds then 8 else 0)

/-- A concrete 3×3 tile store for witnesses: an East-exit tile at (0,0),
a West-exit tile at (1,0), all-exit tiles elsewhere in bounds. -/
def sampleTiles : IVec2 → Option Tile := fun p =>
  if p = ⟨0, 0⟩ then some (Tile.new .Room .E)
  else if p = ⟨1, 0⟩ then some (Tile.new .Corridor .W)
  else if 0 ≤ p.x ∧ p.x < 3 ∧ 0 ≤ p.y ∧ p.y < 3 then some (Tile.new .Room .NESW)
  else none

/-- A concrete 3×3 map for witnesses. -/
def sampleMap : MapModel :=
  ⟨3, 3, sampleTiles⟩

/-- A trivial stateless generator (like the test `StaticGenerator` in
`map.rs`) used by witnesses: always an all-exit room tile. -/
def constStep : StepGen Unit := fun s _ _ =>
  some (Tile.new .Room .NESW, s)

/-- A concrete generator state for witnesses: every Bernoulli outcome
true, cursor at the start. -/
def allTrueState : GenState :=
  ⟨fun _ => true, 0⟩

/-- The concrete 1×1 map `mapNew` builds with the trivial generator,
used by the C9 witness. -/
def builtMap1 : MapModel :=
  ⟨1, 1, fun q => if q = ⟨0, 0⟩ then some (Tile.new .Room .NESW) else none⟩

/-- The concrete 2×2 map `mapNew` builds with the default generator,
exit and room probabilities 1 and the all-true outcome stream: every
tile is an all-exit room tile, inserted in scan order. -/
def builtMap2 : MapModel :=
  ⟨2, 2, fun q =>
    if q = ⟨1, 1⟩ then some (Tile.new .Room .NESW)
    else if q = ⟨1, 0⟩ then some (Tile.new .Room .NESW)
    else if q = ⟨0, 1⟩ then some (Tile.new .Room .NESW)
    else if q = ⟨0, 0⟩ then some (Tile.new .Room .NESW)
    else none⟩

/-! ### Helper lemmas about the tile mask algebra -/

theorem mem_directions_iff (t : MapTile) (d : Direction) :
    d ∈ t.directions ↔ t.toNat &&& d.val ≠ 0 := by
  cases t <;> cases d <;> decide

theorem sum_val_of_nodup (ds : List Direction) (h : ds.Nodup) :
    (ds.map Direction.val).sum = maskOf ds := by
  induction ds with
  | nil => decide
  | cons d tl ih =>
    rw [List.nodup_cons] at h
    obtain ⟨hd, htl⟩ := h
    rw [List.map_cons, List.sum_cons, ih htl]
    cases d <;> simp [maskOf, List.mem_cons, Direction.val, hd] <;> omega

theorem maskOf_le (ds : List Direction) : maskOf ds ≤ 15 := by
  unfold maskOf
  split_ifs <;> omega

theorem maskOf_land_ne_zero (ds : List Direction) (d : Direction) :
    maskOf ds &&& d.val ≠ 0 ↔ d ∈ ds := by
  cases d <;>
    by_cases h₁ : Direction.North ∈ ds <;>
    by_cases h₂ : Direction.East ∈ ds <;>
    by_cases h₃ : Direction.South ∈ ds <;>
    by_cases h₄ : Direction.West ∈ ds <;>
    simp [maskOf, Direction.val, h₁, h₂, h₃, h₄] <;> decide

theorem ofMask_toNat (t : MapTile) : MapTile.ofMask t.toNat = some t := by
  cases t <;> rfl

theorem ofMask_map_toNat : ∀ m < 16, (MapTile.ofMask m).map MapTile.toNat = some m := by
  decide

/-- `from_directions` written with its two guards merged into one
condition: the deduplicated-count check of the source is exactly a
`Nodup` check. -/
theorem from_directions_eq (ds : List Direction) :
    MapTile.from_directions ds =
      if 4 < ds.length ∨ ¬ ds.Nodup then none
      else MapTile.ofMask (ds.map Direction.val).sum := by
  unfold MapTile.from_directions
  have hdedup : ds.dedup.length ≠ ds.length ↔ ¬ ds.Nodup := by
    constructor
    · intro hne hnd
      exact hne (by rw [List.Nodup.dedup hnd])
    · intro hnd hlen
      exact hnd (List.dedup_eq_self.mp (ds.dedup_sublist.eq_of_length hlen))
  by_cases hlen : 4 < ds.length
  · simp [hlen]
  · by_cases hnd : ds.Nodup
    · have h1 : ¬ ds.dedup.length ≠ ds.length := fun h => (hdedup.mp h) hnd
      simp [hlen, hnd, h1]
    · have h1 : ds.dedup.length ≠ ds.length := hdedup.mpr hnd
      simp [hlen, hnd, h1]

theorem from_directions_eq_some_iff (ds : List Direction) (t : MapTile) :
    MapTile.from_directions ds = some t ↔
      ds.length ≤ 4 ∧ ds.Nodup ∧ t.toNat = maskOf ds := by
  have h15 : maskOf ds < 16 := Nat.lt_succ_of_le (maskOf_le ds)
  constructor
  · intro h
    rw [from_directions_eq] at h
    by_cases hc : 4 < ds.length ∨ ¬ ds.Nodup
    · rw [if_pos hc] at h
      exact absurd h (by simp)
    · push_neg at hc
      obtain ⟨hlen, hnd⟩ := hc
      rw [if_neg (by push_neg; exact ⟨hlen, hnd⟩)] at h
      refine ⟨hlen, hnd, ?_⟩
      rw [sum_val_of_nodup ds hnd] at h
      have hmap := ofMask_map_toNat (maskOf ds) h15
      rw [h] at hmap
      simpa using hmap
  · rintro ⟨hlen, hnd, hmask⟩
    rw [from_directions_eq, if_neg (by push_neg; exact ⟨by omega, hnd⟩),
      sum_val_of_nodup ds hnd, ← hmask, ofMask_toNat]

theorem from_directions_isSome (ds : List Direction) (hnd : ds.Nodup)
    (hlen : ds.length ≤ 4) : (MapTile.from_directions ds).isSome = true := by
  have h15 : maskOf ds < 16 := Nat.lt_succ_of_le (maskOf_le ds)
  have hmap := ofMask_map_toNat (maskOf ds) h15
  rw [from_directions_eq, if_neg (by push_neg; exact ⟨by omega, hnd⟩),
    sum_val_of_nodup ds hnd]
  rcases hm : MapTile.ofMask (maskOf ds) with _ | t
  · rw [hm] at hmap
    simp at hmap
  · rfl

/-- C5: `from_directions` returns its explicit invalid result `none` —
never crashing — exactly when the input has more than 4 elements or a
repeated direction; any valid input yields the tile whose exit set is
exactly the set of input directions (the bitwise union of their
power-of-two values), so duplicate-free permutations of one set yield
the identical tile, and the empty input yields the no-exits tile. -/
theorem C5_from_directions_spec (ds : List Direction) :
    (MapTile.from_directions ds = none ↔ 4 < ds.length ∨ ¬ ds.Nodup) ∧
    (∀ t, MapTile.from_directions ds = some t →
      ∀ d, (d ∈ t.directions ↔ d ∈ ds)) ∧
    (∀ ds₂, ds.Perm ds₂ →
      MapTile.from_directions ds = MapTile.from_directions ds₂) ∧
    MapTile.from_directions [] = some MapTile.ZERO := by
  refine ⟨?_, ?_, ?_, by decide⟩
  · constructor
    · intro h
      by_contra hcon
      push_neg at hcon
      obtain ⟨hlen, hnd⟩ := hcon
      have := from_directions_isSome ds hnd (by omega)
      rw [h] at this
      simp at this
    · intro h
      rw [from_directions_eq, if_pos h]
  · intro t ht d
    obtain ⟨-, hnd, hmask⟩ := (from_directions_eq_some_iff ds t).mp ht
    rw [mem_directions_iff, hmask, maskOf_land_ne_zero]
  · intro ds₂ hperm
    rw [from_directions_eq, from_directions_eq, hperm.length_eq,
      List.Perm.sum_eq (hperm.map Direction.val)]
    by_cases hnd : ds.Nodup
    · simp [hnd, hperm.nodup_iff.mp hnd]
    · have h2 : ¬ ds₂.Nodup := fun h => hnd (hperm.nodup_iff.mpr h)
      simp [hnd, h2]

/-- Witness for C5 at concrete inputs: the two-exit tile built from
`[North, East]` has exactly those exits, the permuted input
`[East, North]` builds the same tile, and the empty input builds the
no-exits tile. -/
theorem C5_from_directions_spec_witness :
    (Direction.North ∈ MapTile.NE.directions ↔
      Direction.North ∈ [Direction.North, Direction.East]) ∧
    MapTile.from_directions [Direction.East, Direction.North] =
      MapTile.from_directions [Direction.North, Direction.East] ∧
    MapTile.from_directions [] = some MapTile.ZERO :=
  ⟨(C5_from_directions_spec [Direction.North, Direction.East]).2.1
      MapTile.NE (by decide) Direction.North,
    (C5_from_directions_spec [Direction.East, Direction.North]).2.2.1
      [Direction.North, Direction.East] (by decide),
    (C5_from_directions_spec []).2.2.2⟩

/-- C6: for each of the 16 valid exit masks, `from_directions` applied to
`directions` round-trips back to the same tile, and `directions` lists
the member directions as a subsequence of the canonical
North, East, South, West enumeration (hence in that order, with length
0 to 4). -/
theorem C6_roundtrip (t : MapTile) :
    MapTile.from_directions t.directions = some t ∧
    t.directions.Sublist Direction.all ∧
    t.directions.length ≤ 4 := by
  cases t <;> decide

/-! ### Helper lemmas about movement queries -/

theorem opposite_opposite (d : Direction) : d.opposite.opposite = d := by
  cases d <;> rfl

theorem dirOfDelta_some_iff (dx dy : Int) (d : Direction) :
    dirOfDelta dx dy = some d ↔ dx = d.vec.x ∧ dy = d.vec.y := by
  unfold dirOfDelta
  split_ifs with h1 h2 h3 h4 <;> cases d <;> simp [Direction.vec] <;> omega

/-- The movement query unfolded into its specification: legal exactly
when the coordinates differ, both lie in bounds, the displacement is one
unit step in some cardinal direction, and both stored tiles agree the
shared wall is open. -/
theorem canMove_eq_true_iff (m : MapModel) (p q : IVec2) :
    m.can_move p q = true ↔
      p ≠ q ∧ m.inBounds p ∧ m.inBounds q ∧
      ∃ d tp tq, dirOfDelta (q.x - p.x) (q.y - p.y) = some d ∧
        m.tiles p = some tp ∧ m.tiles q = some tq ∧
        d ∈ tp.map_tile.directions ∧ d.opposite ∈ tq.map_tile.directions := by
  unfold MapModel.can_move
  by_cases hpq : p = q
  · simp [hpq]
  · rw [if_neg hpq]
    by_cases hB : p.x < 0 ∨ p.y < 0 ∨ p.x ≥ (m.x : Int) ∨ p.y ≥ (m.y : Int) ∨
        q.x < 0 ∨ q.y < 0 ∨ q.x ≥ (m.x : Int) ∨ q.y ≥ (m.y : Int)
    · rw [if_pos hB]
      constructor
      · intro h
        exact absurd h (by simp)
      · rintro ⟨-, hp, hq, -⟩
        obtain ⟨hp1, hp2, hp3, hp4⟩ := hp
        obtain ⟨hq1, hq2, hq3, hq4⟩ := hq
        omega
    · rw [if_neg hB]
      push_neg at hB
      obtain ⟨h1, h2, h3, h4, h5, h6, h7, h8⟩ := hB
      have hp : m.inBounds p := ⟨h1, h3, h2, h4⟩
      have hq : m.inBounds q := ⟨h5, h7, h6, h8⟩
      rcases hd : dirOfDelta (q.x - p.x) (q.y - p.y) with _ | d
      · simp only [hd]
        constructor
        · intro h
          exact absurd h (by simp)
        · rintro ⟨-, -, -, d, tp, tq, hdd, -⟩
          exact absurd hdd (by simp)
      · rcases htp : m.tiles p with _ | tp
        · simp only [hd, htp]
          constructor
          · intro h
            exact absurd h (by simp)
          · rintro ⟨-, -, -, d', tp, tq, hdd, htp', -⟩
            injection hdd with hdd
            exact absurd htp' (by simp)
        · rcases htq : m.tiles q with _ | tq
          · simp only [hd, htp, htq]
            constructor
            · intro h
              exact absurd h (by simp)
            · rintro ⟨-, -, -, d', tp', tq, hdd, htp', htq', -⟩
              exact absurd htq' (by simp)
          · simp only [hd, htp, htq, Bool.and_eq_true, decide_eq_true_eq]
            constructor
            · rintro ⟨hm1, hm2⟩
              exact ⟨hpq, hp, hq, d, tp, tq, rfl, rfl, rfl, hm1, hm2⟩
            · rintro ⟨-, -, -, d', tp', tq', hdd, htp', htq', hm1, hm2⟩
              injection hdd with hdd
              injection htp' with htp'
              injection htq' with htq'
              subst hdd
              subst htp'
              subst htq'
              exact ⟨hm1, hm2⟩

/-- C1: `can_move` is a total boolean query (never errors or panics): it
returns true exactly when the two coordinates are distinct, both lie
inside `[0,width) × [0,height)`, the displacement is exactly one unit
step in a single cardinal direction `d`, both coordinates have stored
tiles, and the from tile's exit set contains `d` while the to tile's
exit set contains `d.opposite`; in every other case — equal coordinates,
out-of-bounds coordinates, non-unit or diagonal displacement, or a
missing tile — it returns false. -/
theorem C1_can_move_spec (m : MapModel) (p q : IVec2) :
    m.can_move p q = true ↔
      p ≠ q ∧ m.inBounds p ∧ m.inBounds q ∧
      ∃ d : Direction, q.x - p.x = d.vec.x ∧ q.y - p.y = d.vec.y ∧
        ∃ tp tq, m.tiles p = some tp ∧ m.tiles q = some tq ∧
          d ∈ tp.map_tile.directions ∧ d.opposite ∈ tq.map_tile.directions := by
  rw [canMove_eq_true_iff]
  constructor
  · rintro ⟨hpq, hp, hq, d, tp, tq, hdd, htp, htq, hm1, hm2⟩
    obtain ⟨hdx, hdy⟩ := (dirOfDelta_some_iff _ _ _).mp hdd
    exact ⟨hpq, hp, hq, d, hdx, hdy, tp, tq, htp, htq, hm1, hm2⟩
  · rintro ⟨hpq, hp, hq, d, hdx, hdy, tp, tq, htp, htq, hm1, hm2⟩
    exact ⟨hpq, hp, hq, d, tp, tq, (dirOfDelta_some_iff _ _ _).mpr ⟨hdx, hdy⟩,
      htp, htq, hm1, hm2⟩

/-- Witness for C1 at a concrete input: on `sampleMap`, moving East from
(0,0) to (1,0) is legal, by the backward direction of the
characterization with every condition checked concretely. -/
theorem C1_can_move_spec_witness : sampleMap.can_move ⟨0, 0⟩ ⟨1, 0⟩ = true :=
  (C1_can_move_spec sampleMap ⟨0, 0⟩ ⟨1, 0⟩).mpr
    ⟨by decide, by decide, by decide, Direction.East, by decide, by decide,
      Tile.new .Room .E, Tile.new .Corridor .W, by decide, by decide,
      by decide, by decide⟩

theorem canMove_true_symm (m : MapModel) (a b : IVec2)
    (h : m.can_move a b = true) : m.can_move b a = true := by
  rw [canMove_eq_true_iff] at h ⊢
  obtain ⟨hab, ha, hb, d, tp, tq, hdd, htp, htq, hm1, hm2⟩ := h
  refine ⟨Ne.symm hab, hb, ha, d.opposite, tq, tp, ?_, htq, htp, hm2, ?_⟩
  · rw [dirOfDelta_some_iff] at hdd ⊢
    obtain ⟨hdx, hdy⟩ := hdd
    cases d <;> simp only [Direction.vec, Direction.opposite] at * <;> omega
  · rw [opposite_opposite]
    exact hm1

theorem canMove_symm (m : MapModel) (p q : IVec2) :
    m.can_move p q = m.can_move q p := by
  cases hpq : m.can_move p q with
  | true => exact (canMove_true_symm m p q hpq).symm
  | false =>
    cases hqp : m.can_move q p with
    | false => rfl
    | true => exact absurd (canMove_true_symm m q p hqp) (by rw [hpq]; simp)

/-- C10: the movement query is symmetric on every map, however its tile
store was produced: `can_move(a,b)` and `can_move(b,a)` always agree. -/
theorem C10_can_move_symm (m : MapModel) (p q : IVec2) :
    m.can_move p q = m.can_move q p :=
  canMove_symm m p q

/-! ### Helper lemmas about the default generator's direction loop -/

theorem collectExits_sublist (cfg : GenCfg) (tiles : IVec2 → Option Tile)
    (loc : IVec2) :
    ∀ (ds : List Direction) (s : GenState) (out : List Direction) (s' : GenState),
      collectExits cfg tiles loc ds s = some (out, s') → out.Sublist ds := by
  intro ds
  induction ds with
  | nil =>
    intro s out s' h
    unfold collectExits at h
    simp only [Option.some.injEq, Prod.mk.injEq] at h
    obtain ⟨h1, h2⟩ := h
    subst h1
    exact List.nil_sublist []
  | cons d tl ih =>
    intro s out s' h
    unfold collectExits at h
    rcases hnb : tiles (loc + d.vec) with _ | t <;> simp only [hnb] at h
    · rcases hrb : randomBool cfg.tile_exit_probability s with _ | ⟨b, s1⟩
      · rw [hrb] at h
        simp at h
      · simp only [hrb] at h
        rcases hce : collectExits cfg tiles loc tl s1 with _ | ⟨out1, s2⟩
        · rw [hce] at h
          simp at h
        · simp only [hce] at h
          have hsub := ih s1 out1 s2 hce
          cases b
          · rw [if_neg (by simp)] at h
            simp only [Option.some.injEq, Prod.mk.injEq] at h
            rw [← h.1]
            exact hsub.cons d
          · rw [if_pos rfl] at h
            simp only [Option.some.injEq, Prod.mk.injEq] at h
            rw [← h.1]
            exact hsub.cons₂ d
    · rcases hce : collectExits cfg tiles loc tl s with _ | ⟨out1, s2⟩
      · rw [hce] at h
        simp at h
      · simp only [hce] at h
        have hsub := ih s out1 s2 hce
        by_cases hop : d.opposite ∈ t.map_tile.directions
        · rw [if_pos hop] at h
          simp only [Option.some.injEq, Prod.mk.injEq] at h
          rw [← h.1]
          exact hsub.cons₂ d
        · rw [if_neg hop] at h
          simp only [Option.some.injEq, Prod.mk.injEq] at h
          rw [← h.1]
          exact hsub.cons d

/-- Full characterization of the direction loop on any duplicate-free
direction list: when it succeeds, the outcome stream is untouched, the
cursor advances by exactly one per not-yet-generated neighbor, and a
direction is in the output exactly when either its neighbor is
generated with a matching opposite exit, or its neighbor is ungenerated
and the corresponding Bernoulli outcome — the draw whose index counts
the earlier ungenerated-neighbor directions — is true. -/
theorem collectExits_mem_spec (cfg : GenCfg) (tiles : IVec2 → Option Tile)
    (loc : IVec2) :
    ∀ (ds : List Direction) (s : GenState) (out : List Direction) (s' : GenState),
      collectExits cfg tiles loc ds s = some (out, s') →
      s'.draws = s.draws ∧
      s'.idx = s.idx + ds.countP (fun d => ungenerated tiles loc d) ∧
      (ds.Nodup → ∀ d, d ∈ out ↔ d ∈ ds ∧
        (match tiles (loc + d.vec) with
         | some t => d.opposite ∈ t.map_tile.directions
         | none =>
           s.draws (s.idx +
             (ds.takeWhile (fun e => e != d)).countP
               (fun e => ungenerated tiles loc e)) = true)) := by
  intro ds
  induction ds with
  | nil =>
    intro s out s' h
    unfold collectExits at h
    simp only [Option.some.injEq, Prod.mk.injEq] at h
    obtain ⟨h1, h2⟩ := h
    subst h2
    refine ⟨rfl, by simp, ?_⟩
    intro _ d
    simp [← h1]
  | cons d tl ih =>
    intro s out s' h
    unfold collectExits at h
    rcases hnb : tiles (loc + d.vec) with _ | t <;> simp only [hnb] at h
    · rcases hrb : randomBool cfg.tile_exit_probability s with _ | ⟨b, s1⟩
      · rw [hrb] at h
        simp at h
      · simp only [hrb] at h
        have hs1 : s1.draws = s.draws ∧ s1.idx = s.idx + 1 ∧ b = s.draws s.idx := by
          unfold randomBool at hrb
          by_cases hp : 0 ≤ cfg.tile_exit_probability ∧ cfg.tile_exit_probability ≤ 1
          · rw [if_pos hp] at hrb
            simp only [Option.some.injEq, Prod.mk.injEq] at hrb
            obtain ⟨hb, hs⟩ := hrb
            rw [← hs]
            exact ⟨rfl, rfl, hb.symm⟩
          · rw [if_neg hp] at hrb
            exact absurd hrb (by simp)
        obtain ⟨hs1d, hs1i, hbval⟩ := hs1
        rcases hce : collectExits cfg tiles loc tl s1 with _ | ⟨out1, s2⟩
        · rw [hce] at h
          simp at h
        · simp only [hce] at h
          obtain ⟨hd2, hi2, hm2⟩ := ih s1 out1 s2 hce
          have hout1 : out = (if b then d :: out1 else out1) ∧ s' = s2 := by
            cases b
            · rw [if_neg (by simp)] at h
              rw [if_neg (by simp)]
              simp only [Option.some.injEq, Prod.mk.injEq] at h
              exact ⟨h.1.symm, h.2.symm⟩
            · rw [if_pos rfl] at h
              rw [if_pos rfl]
              simp only [Option.some.injEq, Prod.mk.injEq] at h
              exact ⟨h.1.symm, h.2.symm⟩
          obtain ⟨hout, hs'⟩ := hout1
          subst hs'
          have hungen : ungenerated tiles loc d = true := by
            simp [ungenerated, hnb]
          refine ⟨by rw [hd2, hs1d], ?_, ?_⟩
          · rw [hi2, hs1i, List.countP_cons, hungen]
            simp only [if_true, ite_true]
            omega
          · intro hnd d'
            rw [List.nodup_cons] at hnd
            obtain ⟨hdn, hndtl⟩ := hnd
            have hmem := hm2 hndtl d'
            by_cases hdd : d' = d
            · subst hdd
              have hnotin : d' ∉ out1 := fun hin => hdn ((hmem.mp hin).1)
              have hLHS : d' ∈ out ↔ b = true := by
                rw [hout]
                cases b <;> simp [hnotin]
              rw [hLHS, hbval]
              have htw : (d' :: tl).takeWhile (fun e => e != d') = [] := by
                simp [List.takeWhile_cons]
              simp only [hnb, List.mem_cons, true_or, true_and, htw,
                List.countP_nil, Nat.add_zero]
            · have hLHS : d' ∈ out ↔ d' ∈ out1 := by
                rw [hout]
                cases b <;> simp [hdd]
              have hbne : (d != d') = true := by
                simp only [bne_iff_ne, ne_eq]
                exact Ne.symm hdd
              have htw : (d :: tl).takeWhile (fun e => e != d') =
                  d :: tl.takeWhile (fun e => e != d') := by
                simp [List.takeWhile_cons, hbne]
              rw [hLHS, hmem]
              rcases hnb' : tiles (loc + d'.vec) with _ | t' <;>
                simp only [hnb', htw, List.countP_cons, hungen, if_true, ite_true,
                  List.mem_cons, hdd, false_or, hs1d, hs1i]
              have harith :
                  s.idx + 1 +
                    (tl.takeWhile (fun e => e != d')).countP
                      (fun e => ungenerated tiles loc e) =
                  s.idx +
                    ((tl.takeWhile (fun e => e != d')).countP
                      (fun e => ungenerated tiles loc e) + 1) := by
                omega
              rw [harith]
    · rcases hce : collectExits cfg tiles loc tl s with _ | ⟨out1, s2⟩
      · rw [hce] at h
        simp at h
      · simp only [hce] at h
        obtain ⟨hd2, hi2, hm2⟩ := ih s out1 s2 hce
        have hout1 : out = (if d.opposite ∈ t.map_tile.directions
            then d :: out1 else out1) ∧ s' = s2 := by
          by_cases hop : d.opposite ∈ t.map_tile.directions
          · rw [if_pos hop] at h ⊢
            simp only [Option.some.injEq, Prod.mk.injEq] at h
            exact ⟨h.1.symm, h.2.symm⟩
          · rw [if_neg hop] at h ⊢
            simp only [Option.some.injEq, Prod.mk.injEq] at h
            exact ⟨h.1.symm, h.2.symm⟩
        obtain ⟨hout, hs'⟩ := hout1
        subst hs'
        have hungen : ungenerated tiles loc d = false := by
          simp [ungenerated, hnb]
        refine ⟨hd2, ?_, ?_⟩
        · rw [hi2, List.countP_cons, hungen]
          simp
        · intro hnd d'
          rw [List.nodup_cons] at hnd
          obtain ⟨hdn, hndtl⟩ := hnd
          have hmem := hm2 hndtl d'
          by_cases hdd : d' = d
          · subst hdd
            have hnotin : d' ∉ out1 := fun hin => hdn ((hmem.mp hin).1)
            have hLHS : d' ∈ out ↔ d'.opposite ∈ t.map_tile.directions := by
              rw [hout]
              by_cases hop : d'.opposite ∈ t.map_tile.directions <;>
                simp [hop, hnotin]
            rw [hLHS]
            simp only [hnb, List.mem_cons, true_or, true_and]
          · have hLHS : d' ∈ out ↔ d' ∈ out1 := by
              rw [hout]
              by_cases hop : d.opposite ∈ t.map_tile.directions <;>
                simp [hop, hdd]
            have hbne : (d != d') = true := by
              simp only [bne_iff_ne, ne_eq]
              exact Ne.symm hdd
            have htw : (d :: tl).takeWhile (fun e => e != d') =
                d :: tl.takeWhile (fun e => e != d') := by
              simp [List.takeWhile_cons, hbne]
            rw [hLHS, hmem]
            rcases hnb' : tiles (loc + d'.vec) with _ | t' <;>
              simp only [hnb', htw, List.countP_cons, hungen,
                Bool.false_eq_true, if_false, ite_false, Nat.add_zero,
                List.mem_cons, hdd, false_or]

theorem takeWhile_count_drawsBefore (tiles : IVec2 → Option Tile) (loc : IVec2)
    (d : Direction) :
    ((Direction.all.takeWhile (fun e => e != d)).countP
      (fun e => ungenerated tiles loc e)) = drawsBefore tiles loc d := by
  cases d <;>
    simp [Direction.all, drawsBefore, List.takeWhile_cons, List.countP_cons] <;>
    omega

/-- C2: whenever the default generator's direction loop over the four
canonical directions completes, each of the four directions was
considered exactly once — the cursor advances by exactly one Bernoulli
trial per direction whose neighbor is not yet generated and by none for
generated neighbors — and a direction is among the produced exits
exactly when either its neighbor is already generated and that
neighbor's tile has the exit pointing back (so a door is never opened
toward a generated neighbor lacking the matching exit), or its neighbor
is not yet generated and the direction's own independent Bernoulli
outcome is true. -/
theorem C2_tile_at_direction_rule (cfg : GenCfg) (tiles : IVec2 → Option Tile)
    (loc : IVec2) (s : GenState) (out : List Direction) (s' : GenState)
    (h : collectExits cfg tiles loc Direction.all s = some (out, s')) :
    s'.draws = s.draws ∧
    s'.idx = s.idx + Direction.all.countP (fun d => ungenerated tiles loc d) ∧
    ∀ d : Direction, d ∈ out ↔
      (match tiles (loc + d.vec) with
       | some t => d.opposite ∈ t.map_tile.directions
       | none => s.draws (s.idx + drawsBefore tiles loc d) = true) := by
  obtain ⟨h1, h2, h3⟩ := collectExits_mem_spec cfg tiles loc Direction.all s out s' h
  refine ⟨h1, h2, ?_⟩
  intro d
  have hall : d ∈ Direction.all := by cases d <;> decide
  rw [h3 (by decide) d]
  have hcount := takeWhile_count_drawsBefore tiles loc d
  rcases hnb : tiles (loc + d.vec) with _ | t <;> simp only [hnb, hall, true_and]
  rw [hcount]

/-- Witness for C2 at a concrete input: with every neighbor already
generated as an East-exit-only tile, the loop run from the all-true
outcome stream produces exactly the West exit, and the characterization
instantiated at West reduces to the neighbor's matching-exit test. -/
theorem C2_tile_at_direction_rule_witness :
    Direction.West ∈ [Direction.West] ↔
      Direction.West.opposite ∈ (Tile.new .Room .E).map_tile.directions :=
  (C2_tile_at_direction_rule defaultCfg (fun _ => some (Tile.new .Room .E))
      ⟨0, 0⟩ allTrueState [Direction.West] allTrueState rfl).2.2 Direction.West

/-- C8: any direction set the default generator's loop assembles is a
subsequence of the four canonical directions — at most 4 elements, no
duplicates — and is therefore always accepted by `from_directions`, so
the `.unwrap()` in `tile_at` can never be reached with a `None`. -/
theorem C8_exits_always_valid (cfg : GenCfg) (tiles : IVec2 → Option Tile)
    (loc : IVec2) (s : GenState) (out : List Direction) (s' : GenState)
    (h : collectExits cfg tiles loc Direction.all s = some (out, s')) :
    out.Nodup ∧ out.length ≤ 4 ∧ (MapTile.from_directions out).isSome = true := by
  have hsub := collectExits_sublist cfg tiles loc Direction.all s out s' h
  have hnd : out.Nodup := (by decide : Direction.all.Nodup).sublist hsub
  have hlen : out.length ≤ 4 := by
    have hle := hsub.length_le
    simpa [Direction.all] using hle
  exact ⟨hnd, hlen, from_directions_isSome out hnd hlen⟩

/-- Witness for C8 at a concrete input: the single-exit set produced in
the C2 witness scenario is duplicate-free, short, and accepted. -/
theorem C8_exits_always_valid_witness :
    [Direction.West].Nodup ∧ [Direction.West].length ≤ 4 ∧
      (MapTile.from_directions [Direction.West]).isSome = true :=
  C8_exits_always_valid defaultCfg (fun _ => some (Tile.new .Room .E))
    ⟨0, 0⟩ allTrueState [Direction.West] allTrueState rfl

/-! ### Helper lemmas about the generation driver -/

theorem buildTiles_isSome {σ : Type} (step : StepGen σ) :
    ∀ (ps : List IVec2) (tiles : IVec2 → Option Tile) (s : σ)
      (tiles' : IVec2 → Option Tile) (s' : σ),
      buildTiles step ps tiles s = some (tiles', s') →
      ∀ p, (tiles' p).isSome = true ↔ (p ∈ ps ∨ (tiles p).isSome = true) := by
  intro ps
  induction ps with
  | nil =>
    intro tiles s tiles' s' h p
    unfold buildTiles at h
    simp only [Option.some.injEq, Prod.mk.injEq] at h
    rw [← h.1]
    simp
  | cons q ps ih =>
    intro tiles s tiles' s' h p
    unfold buildTiles at h
    rcases hst : step s tiles q with _ | ⟨t, s1⟩
    · rw [hst] at h
      simp at h
    · simp only [hst] at h
      rw [ih _ s1 tiles' s' h p]
      by_cases hpq : p = q
      · subst hpq
        simp
      · simp [hpq, List.mem_cons]

theorem mem_genPositions (x y : Nat) (p : IVec2) :
    p ∈ genPositions x y ↔
      0 ≤ p.x ∧ p.x < (x : Int) ∧ 0 ≤ p.y ∧ p.y < (y : Int) := by
  rcases p with ⟨px, py⟩
  dsimp only
  unfold genPositions
  constructor
  · intro h
    obtain ⟨i, hi, hmem⟩ := List.mem_flatMap.mp h
    obtain ⟨j, hj, heq⟩ := List.mem_map.mp hmem
    rw [List.mem_range] at hi hj
    injection heq with h1 h2
    subst h1
    subst h2
    refine ⟨by omega, by omega, by omega, by omega⟩
  · rintro ⟨h1, h2, h3, h4⟩
    refine List.mem_flatMap.mpr ⟨px.toNat, ?_, List.mem_map.mpr ⟨py.toNat, ?_, ?_⟩⟩
    · rw [List.mem_range]
      omega
    · rw [List.mem_range]
      omega
    · simp only [IVec2.mk.injEq]
      exact ⟨by omega, by omega⟩

/-- Decomposition of a successful `Map::new`: the dimensions are as
requested, and the tile store holds an entry exactly at the in-bounds
coordinates. -/
theorem mapNew_eq {σ : Type} (size : Nat) (step : StepGen σ) (s0 : σ)
    (m : MapModel) (s : σ) (h : mapNew size step s0 = some (m, s)) :
    m.x = size ∧ m.y = size ∧
    ∀ p, (m.tiles p).isSome = true ↔
      (0 ≤ p.x ∧ p.x < (size : Int) ∧ 0 ≤ p.y ∧ p.y < (size : Int)) := by
  unfold mapNew at h
  rcases hb : buildTiles step (genPositions size size) (fun _ => none) s0 with
    _ | ⟨tiles, s1⟩
  · rw [hb] at h
    simp at h
  · simp only [hb, Option.some.injEq, Prod.mk.injEq] at h
    obtain ⟨hm, hs⟩ := h
    subst hm
    refine ⟨rfl, rfl, ?_⟩
    intro p
    rw [buildTiles_isSome step (genPositions size size) (fun _ => none) s0
      tiles s1 hb p]
    simp [mem_genPositions]

/-- C9: whenever `Map::new` returns, the tile store — a keyed map with
inherently at most one entry per key — holds an entry for every
coordinate of the `[0,width) × [0,height)` grid and none for any
out-of-bounds coordinate, for every size and every generator. -/
theorem C9_map_new_domain {σ : Type} (size : Nat) (step : StepGen σ) (s0 : σ)
    (m : MapModel) (s : σ) (h : mapNew size step s0 = some (m, s)) (p : IVec2) :
    (m.tiles p).isSome = true ↔
      (0 ≤ p.x ∧ p.x < (size : Int) ∧ 0 ≤ p.y ∧ p.y < (size : Int)) :=
  (mapNew_eq size step s0 m s h).2.2 p

/-- Witness for C9 at a concrete input: the 1×1 map built by the trivial
generator stores a tile at (0,0) and none at the out-of-bounds (1,0). -/
theorem C9_map_new_domain_witness :
    (builtMap1.tiles ⟨0, 0⟩).isSome = true ∧
    (builtMap1.tiles ⟨1, 0⟩).isSome = false := by
  have h : mapNew 1 constStep () = some (builtMap1, ()) := rfl
  constructor
  · exact (C9_map_new_domain 1 constStep () builtMap1 () h ⟨0, 0⟩).mpr (by decide)
  · cases hb : (builtMap1.tiles ⟨1, 0⟩).isSome
    · rfl
    · exact absurd ((C9_map_new_domain 1 constStep () builtMap1 () h ⟨1, 0⟩).mp hb)
        (by decide)

/-- C3: on any map produced by `Map::new` from the default generator,
for adjacent in-bounds coordinates (displacement one unit step in
direction `d`) both tiles exist, the movement query agrees in the two
orders, and it is true exactly when each of the two tiles lists the exit
facing the other. -/
theorem C3_generated_adjacent (cfg : GenCfg) (s0 : GenState) (size : Nat)
    (m : MapModel) (s : GenState)
    (hm : mapNew size (tileAtDefault cfg) s0 = some (m, s))
    (a b : IVec2) (d : Direction)
    (hdx : b.x - a.x = d.vec.x) (hdy : b.y - a.y = d.vec.y)
    (ha : m.inBounds a) (hb : m.inBounds b) :
    m.can_move a b = m.can_move b a ∧
    ∃ ta tb, m.tiles a = some ta ∧ m.tiles b = some tb ∧
      (m.can_move a b = true ↔
        d ∈ ta.map_tile.directions ∧ d.opposite ∈ tb.map_tile.directions) := by
  obtain ⟨hx, hy, hdom⟩ := mapNew_eq size (tileAtDefault cfg) s0 m s hm
  obtain ⟨ha1, ha2, ha3, ha4⟩ := ha
  obtain ⟨hb1, hb2, hb3, hb4⟩ := hb
  rw [hx] at ha2 hb2
  rw [hy] at ha4 hb4
  obtain ⟨ta, hta_eq⟩ := Option.isSome_iff_exists.mp
    ((hdom a).mpr ⟨ha1, ha2, ha3, ha4⟩)
  obtain ⟨tb, htb_eq⟩ := Option.isSome_iff_exists.mp
    ((hdom b).mpr ⟨hb1, hb2, hb3, hb4⟩)
  have hx' : (m.x : Int) = (size : Int) := by rw [hx]
  have hy' : (m.y : Int) = (size : Int) := by rw [hy]
  have hne : a ≠ b := by
    intro heq
    subst heq
    cases d <;> simp [Direction.vec] at hdx hdy
  refine ⟨canMove_symm m a b, ta, tb, hta_eq, htb_eq, ?_⟩
  rw [canMove_eq_true_iff]
  constructor
  · rintro ⟨-, -, -, d', tp, tq, hdd, htp, htq, h1, h2⟩
    rw [dirOfDelta_some_iff] at hdd
    obtain ⟨hddx, hddy⟩ := hdd
    have hd' : d' = d := by
      cases d <;> cases d' <;> simp_all [Direction.vec]
    subst hd'
    rw [hta_eq] at htp
    rw [htb_eq] at htq
    injection htp with htp
    injection htq with htq
    subst htp
    subst htq
    exact ⟨h1, h2⟩
  · rintro ⟨h1, h2⟩
    refine ⟨hne, ?_, ?_, d, ta, tb,
      (dirOfDelta_some_iff _ _ _).mpr ⟨hdx, hdy⟩, hta_eq, htb_eq, h1, h2⟩
    · exact ⟨ha1, by omega, ha3, by omega⟩
    · exact ⟨hb1, by omega, hb3, by omega⟩

/-- Witness for C3 at a concrete input: on the 2×2 map generated by the
default policy with probabilities 1 and the all-true stream, moving
North from (0,0) to (0,1) agrees with the reverse query and reduces to
the matching-exit test on the two all-exit tiles. -/
theorem C3_generated_adjacent_witness :
    builtMap2.can_move ⟨0, 0⟩ ⟨0, 1⟩ = builtMap2.can_move ⟨0, 1⟩ ⟨0, 0⟩ ∧
    (builtMap2.can_move ⟨0, 0⟩ ⟨0, 1⟩ = true ↔
      Direction.North ∈ (Tile.new .Room .NESW).map_tile.directions ∧
      Direction.North.opposite ∈ (Tile.new .Room .NESW).map_tile.directions) := by
  have h : mapNew 2 (tileAtDefault ⟨1, 1⟩) allTrueState =
      some (builtMap2, ⟨fun _ => true, 16⟩) := rfl
  obtain ⟨hsym, ta, tb, hta, htb, hiff⟩ :=
    C3_generated_adjacent ⟨1, 1⟩ allTrueState 2 builtMap2 ⟨fun _ => true, 16⟩ h
      ⟨0, 0⟩ ⟨0, 1⟩ .North (by decide) (by decide) (by decide) (by decide)
  have hc : builtMap2.tiles ⟨0, 0⟩ = some (Tile.new .Room .NESW) := rfl
  have hc2 : builtMap2.tiles ⟨0, 1⟩ = some (Tile.new .Room .NESW) := rfl
  rw [hc] at hta
  rw [hc2] at htb
  have hta2 : ta = Tile.new .Room .NESW := (Option.some.inj hta).symm
  have htb2 : tb = Tile.new .Room .NESW := (Option.some.inj htb).symm
  subst hta2
  subst htb2
  exact ⟨hsym, hiff⟩

/-- C4: generation is deterministic — two maps of the same dimensions
built from two fresh default generators whose seeds determine the same
Bernoulli outcome stream store identical tiles (both the exit mask and
the room/corridor style, since `Tile` equality covers both fields) at
every coordinate. -/
theorem C4_determinism (size : Nat) (draws1 draws2 : Nat → Bool)
    (hs : draws1 = draws2) (p : IVec2) :
    (mapNew size (tileAtDefault defaultCfg) (withSeed draws1)).map
        (fun r => r.1.tiles p) =
      (mapNew size (tileAtDefault defaultCfg) (withSeed draws2)).map
        (fun r => r.1.tiles p) := by
  subst hs
  rfl

/-- Witness for C4 at a concrete input: two size-1 constructions from the
identical all-false stream agree at (0,0). -/
theorem C4_determinism_witness :
    (mapNew 1 (tileAtDefault defaultCfg) (withSeed (fun _ => false))).map
        (fun r => r.1.tiles ⟨0, 0⟩) =
      (mapNew 1 (tileAtDefault defaultCfg) (withSeed (fun _ => false))).map
        (fun r => r.1.tiles ⟨0, 0⟩) :=
  C4_determinism 1 (fun _ => false) (fun _ => false) rfl ⟨0, 0⟩

/-- C7 counterexample: the claim that an out-of-range probability is
rejected eagerly at generator construction is false.
`with_probabilities(2.0, 0.5)` succeeds and stores the invalid
probability unchanged — no validation exists at construction — and the
failure instead happens later, at tile-generation time: the first
`random_bool` draw panics (modelled by `none`), making `tile_at` panic
on an empty neighborhood. -/
theorem C7_eager_rejection_counterexample :
    (with_probabilities 2 (1 / 2)).tile_exit_probability = 2 ∧
    randomBool (with_probabilities 2 (1 / 2)).tile_exit_probability
      allTrueState = none ∧
    tileAtDefault (with_probabilities 2 (1 / 2)) allTrueState
      (fun _ => none) ⟨0, 0⟩ = none :=
  ⟨rfl, rfl, rfl⟩

/-- C7 as amended: `with_probabilities` performs no range validation —
an out-of-range probability is accepted and stored unchanged at
construction, and the failure surfaces only at tile-generation time,
when every `random_bool` draw with that probability panics. -/
theorem C7_amended_no_validation (p r : ℚ) (hp : p < 0 ∨ 1 < p) :
    (with_probabilities p r).tile_exit_probability = p ∧
    (with_probabilities p r).room_probability = r ∧
    ∀ s : GenState, randomBool p s = none := by
  refine ⟨rfl, rfl, fun s => ?_⟩
  unfold randomBool
  rw [if_neg]
  rintro ⟨h1, h2⟩
  rcases hp with h | h <;> linarith

/-- Witness for the amended C7 at a concrete input: probability 2 is
stored as-is by construction and every generation-time draw with it
fails. -/
theorem C7_amended_no_validation_witness :
    (with_probabilities 2 (37 / 100)).tile_exit_probability = 2 ∧
    (with_probabilities 2 (37 / 100)).room_probability = 37 / 100 ∧
    randomBool 2 allTrueState = none :=
  have h := C7_amended_no_validation 2 (37 / 100) (Or.inr (by norm_num))
  ⟨h.1, h.2.1, h.2.2 allTrueState⟩

end BrainEngine
